import Mathlib

/-!
Verification of the contiguous-range compression helper
`get_contiguous_ranges` from `src/app.py` of the
credit-card-fraud-detector repository.

The Python source (lines 32-44):

```
def get_contiguous_ranges(indices):
    if not indices:
        return []
    ranges = []
    start = prev = indices[0]
    for i in indices[1:]:
        if i == prev + 1:
            prev = i
        else:
            ranges.append((start, prev))
            start = prev = i
    ranges.append((start, prev))
    return ranges
```

We embed the loop as structural recursion on the remaining input, with the
accumulated `ranges` list, `start` and `prev` passed explicitly.
-/

namespace RangeCompressor

/-- The body of the `for i in indices[1:]` loop of `get_contiguous_ranges`,
together with the final `ranges.append((start, prev))`.  `acc` is the
`ranges` accumulator, `start` and `prev` the two scan variables, and the
list argument is the not-yet-consumed part of `indices[1:]`. -/
def loop (start prev : Int) (acc : List (Int × Int)) : List Int → List (Int × Int)
  | [] => acc ++ [(start, prev)]
  | i :: rest =>
    if i = prev + 1 then
      loop start i acc rest
    else
      loop i i (acc ++ [(start, prev)]) rest

/-- Shallow embedding of `get_contiguous_ranges` (the `compress` function of
the spec): empty input yields `[]`; otherwise `start = prev = indices[0]`
and the loop runs over `indices[1:]`. -/
def get_contiguous_ranges : List Int → List (Int × Int)
  | [] => []
  | x :: rest => loop x x [] rest

end RangeCompressor

namespace RangeCompressor

theorem loop_nil (start prev : Int) (acc : List (Int × Int)) :
    loop start prev acc [] = acc ++ [(start, prev)] := rfl

theorem loop_cons (start prev i : Int) (acc : List (Int × Int)) (rest : List Int) :
    loop start prev acc (i :: rest) =
      if i = prev + 1 then loop start i acc rest
      else loop i i (acc ++ [(start, prev)]) rest := rfl

theorem loop_append (start prev : Int) (acc : List (Int × Int)) (l : List Int) :
    loop start prev acc l = acc ++ loop start prev [] l := by
  induction l generalizing start prev acc with
  | nil => simp [loop_nil]
  | cons i rest ih =>
    by_cases h : i = prev + 1
    · rw [loop_cons, if_pos h, loop_cons, if_pos h, ih start i acc]
    · rw [loop_cons, if_neg h, loop_cons, if_neg h,
        ih i i (acc ++ [(start, prev)]), ih i i ([] ++ [(start, prev)])]
      simp

theorem loop_ne_nil (start prev : Int) (acc : List (Int × Int)) (l : List Int) :
    loop start prev acc l ≠ [] := by
  induction l generalizing start prev acc with
  | nil => simp [loop_nil]
  | cons i rest ih =>
    by_cases h : i = prev + 1 <;> simp [loop_cons, h, ih]

theorem loop_head (start prev : Int) (l : List Int) :
    ∃ e tl, loop start prev [] l = (start, e) :: tl := by
  induction l generalizing start prev with
  | nil => exact ⟨prev, [], rfl⟩
  | cons i rest ih =>
    by_cases h : i = prev + 1
    · rw [loop_cons, if_pos h]
      exact ih start i
    · refine ⟨prev, loop i i [] rest, ?_⟩
      rw [loop_cons, if_neg h, loop_append]
      simp

theorem loop_last (start prev : Int) (l : List Int) :
    ∃ s e, (loop start prev [] l).getLast? = some (s, e) ∧
      (prev :: l).getLast? = some e := by
  induction l generalizing start prev with
  | nil => exact ⟨start, prev, by simp [loop_nil], rfl⟩
  | cons i rest ih =>
    by_cases h : i = prev + 1
    · rw [loop_cons, if_pos h]
      obtain ⟨s, e, h1, h2⟩ := ih start i
      exact ⟨s, e, h1, by rw [List.getLast?_cons_cons]; exact h2⟩
    · rw [loop_cons, if_neg h, loop_append]
      obtain ⟨s, e, h1, h2⟩ := ih i i
      refine ⟨s, e, ?_, by rw [List.getLast?_cons_cons]; exact h2⟩
      rw [List.getLast?_append, h1]
      rfl

theorem loop_le (start prev : Int) (l : List Int)
    (hsp : start ≤ prev) (hl : (prev :: l).Chain' (· < ·)) :
    ∀ p ∈ loop start prev [] l, p.1 ≤ p.2 := by
  induction l generalizing start prev with
  | nil =>
    intro p hp
    rw [loop_nil] at hp
    simp at hp
    simp [hp, hsp]
  | cons i rest ih =>
    have h1 : prev < i := (List.chain'_cons.mp hl).1
    have h2 := (List.chain'_cons.mp hl).2
    by_cases h : i = prev + 1
    · rw [loop_cons, if_pos h]
      exact ih start i (by omega) h2
    · rw [loop_cons, if_neg h, loop_append]
      intro p hp
      simp only [List.nil_append, List.singleton_append, List.mem_cons] at hp
      rcases hp with hp | hp
      · simp [hp, hsp]
      · exact ih i i le_rfl h2 p hp

theorem loop_gap (start prev : Int) (l : List Int)
    (hl : (prev :: l).Chain' (· < ·)) :
    (loop start prev [] l).Chain' (fun p q => p.2 + 1 < q.1) := by
  induction l generalizing start prev with
  | nil => simp [loop_nil]
  | cons i rest ih =>
    have h1 : prev < i := (List.chain'_cons.mp hl).1
    have h2 := (List.chain'_cons.mp hl).2
    by_cases h : i = prev + 1
    · rw [loop_cons, if_pos h]
      exact ih start i h2
    · rw [loop_cons, if_neg h, loop_append]
      simp only [List.nil_append, List.singleton_append]
      obtain ⟨e, tl, heq⟩ := loop_head i i rest
      rw [heq]
      refine List.chain'_cons.mpr ⟨?_, ?_⟩
      · show prev + 1 < i
        omega
      · rw [← heq]
        exact ih i i h2

theorem chain'_asc_of_gap (rl : List (Int × Int))
    (hle : ∀ p ∈ rl, p.1 ≤ p.2)
    (hch : rl.Chain' (fun p q => p.2 + 1 < q.1)) :
    rl.Chain' (fun p q => p.1 < q.1) := by
  induction rl with
  | nil => simp
  | cons p tl ih =>
    cases tl with
    | nil => simp
    | cons q tl2 =>
      rw [List.chain'_cons] at hch ⊢
      refine ⟨?_, ih (fun r hr => hle r (List.mem_cons_of_mem _ hr)) hch.2⟩
      have hp := hle p (by simp)
      have := hch.1
      omega

theorem compress_le (xs : List Int) (hs : xs.Chain' (· < ·)) :
    ∀ p ∈ get_contiguous_ranges xs, p.1 ≤ p.2 := by
  cases xs with
  | nil => simp [get_contiguous_ranges]
  | cons x rest => exact loop_le x x rest le_rfl hs

theorem compress_gap (xs : List Int) (hs : xs.Chain' (· < ·)) :
    (get_contiguous_ranges xs).Chain' (fun p q => p.2 + 1 < q.1) := by
  cases xs with
  | nil => simp [get_contiguous_ranges]
  | cons x rest => exact loop_gap x x rest hs

/-- The RangeList well-formedness invariant of the spec: every pair
`(start, end)` has `start ≤ end`, the ranges appear in ascending order,
and consecutive ranges `(s1,e1)`, `(s2,e2)` satisfy `s2 > e1 + 1`. -/
def wellFormed (rl : List (Int × Int)) : Prop :=
  (∀ p ∈ rl, p.1 ≤ p.2) ∧
  rl.Chain' (fun p q => p.1 < q.1) ∧
  rl.Chain' (fun p q => p.2 + 1 < q.1)

instance (rl : List (Int × Int)) : Decidable (wellFormed rl) := by
  unfold wellFormed
  infer_instance

/-- Membership of an integer in the union of the closed intervals
`[start, end]` described by a range list. -/
def coveredBy (n : Int) (rl : List (Int × Int)) : Prop :=
  ∃ p ∈ rl, p.1 ≤ n ∧ n ≤ p.2

instance (n : Int) (rl : List (Int × Int)) : Decidable (coveredBy n rl) := by
  unfold coveredBy
  infer_instance

theorem coveredBy_nil (n : Int) : ¬ coveredBy n [] := by
  simp [coveredBy]

theorem coveredBy_cons (n : Int) (p : Int × Int) (rl : List (Int × Int)) :
    coveredBy n (p :: rl) ↔ (p.1 ≤ n ∧ n ≤ p.2) ∨ coveredBy n rl := by
  simp [coveredBy]

theorem loop_coveredBy (start prev n : Int) (l : List Int)
    (hsp : start ≤ prev) (hl : (prev :: l).Chain' (· < ·)) :
    coveredBy n (loop start prev [] l) ↔ (start ≤ n ∧ n ≤ prev) ∨ n ∈ l := by
  induction l generalizing start prev with
  | nil =>
    rw [loop_nil]
    simp [coveredBy]
  | cons i rest ih =>
    have h1 : prev < i := (List.chain'_cons.mp hl).1
    have h2 := (List.chain'_cons.mp hl).2
    by_cases h : i = prev + 1
    · rw [loop_cons, if_pos h, ih start i (by omega) h2]
      constructor
      · rintro (⟨h3, h4⟩ | hA)
        · by_cases h5 : n ≤ prev
          · exact Or.inl ⟨h3, h5⟩
          · exact Or.inr (List.mem_cons.mpr (Or.inl (by omega)))
        · exact Or.inr (List.mem_cons.mpr (Or.inr hA))
      · rintro (⟨h3, h4⟩ | hA)
        · exact Or.inl ⟨h3, by omega⟩
        · rcases List.mem_cons.mp hA with h5 | h5
          · exact Or.inl ⟨by omega, by omega⟩
          · exact Or.inr h5
    · rw [loop_cons, if_neg h, loop_append]
      simp only [List.nil_append, List.singleton_append]
      rw [coveredBy_cons, ih i i le_rfl h2]
      constructor
      · rintro (h3 | ⟨h3, h4⟩ | h3)
        · exact Or.inl h3
        · exact Or.inr (List.mem_cons.mpr (Or.inl (by omega)))
        · exact Or.inr (List.mem_cons.mpr (Or.inr h3))
      · rintro (h3 | h3)
        · exact Or.inl h3
        · rcases List.mem_cons.mp h3 with h4 | h4
          · exact Or.inr (Or.inl ⟨by omega, by omega⟩)
          · exact Or.inr (Or.inr h4)

/-- One step of the reference scan, written from the spec's words (§4.1):
the state is `(result, start, prev)`; a value `i` equal to `prev + 1`
extends the current range (`prev = i`), any other value closes and appends
`(start, prev)` and restarts at `i` (`start = prev = i`). -/
def specStep (st : List (Int × Int) × Int × Int) (i : Int) :
    List (Int × Int) × Int × Int :=
  if i = st.2.2 + 1 then (st.1, st.2.1, i)
  else (st.1 ++ [(st.2.1, st.2.2)], i, i)

/-- The reference scan algorithm from the spec: a single left-to-right pass
starting with `start = prev = xs[0]`, stepping with `specStep`, and
appending the one pending range unconditionally after the scan; the empty
input yields the empty range list. -/
def compressSpec (xs : List Int) : List (Int × Int) :=
  match xs with
  | [] => []
  | x :: rest =>
    let st := rest.foldl specStep ([], x, x)
    st.1 ++ [(st.2.1, st.2.2)]

theorem foldl_specStep (l : List Int) (acc : List (Int × Int)) (start prev : Int) :
    (l.foldl specStep (acc, start, prev)).1 ++
      [((l.foldl specStep (acc, start, prev)).2.1,
        (l.foldl specStep (acc, start, prev)).2.2)] = loop start prev acc l := by
  induction l generalizing acc start prev with
  | nil => simp [loop_nil]
  | cons i rest ih =>
    by_cases h : i = prev + 1
    · rw [List.foldl_cons]
      show (rest.foldl specStep (specStep (acc, start, prev) i)).1 ++ _ = _
      rw [loop_cons, if_pos h]
      have hstep : specStep (acc, start, prev) i = (acc, start, i) := by
        simp [specStep, h]
      rw [hstep]
      exact ih acc start i
    · rw [List.foldl_cons]
      show (rest.foldl specStep (specStep (acc, start, prev) i)).1 ++ _ = _
      rw [loop_cons, if_neg h]
      have hstep : specStep (acc, start, prev) i = (acc ++ [(start, prev)], i, i) := by
        simp [specStep, h]
      rw [hstep]
      exact ih (acc ++ [(start, prev)]) i i

/-- The list `s, s+1, ..., e` of constituent integers of a range pair
`(s, e)` (empty when `e < s`). -/
def expandRange (p : Int × Int) : List Int :=
  (List.range (p.2 + 1 - p.1).toNat).map (fun k : Nat => p.1 + (k : Int))

/-- Concatenation, in order, of the expansion of every range of a range
list back into its constituent integers. -/
def expandRanges (rl : List (Int × Int)) : List Int :=
  rl.flatMap expandRange

theorem expandRanges_nil : expandRanges [] = [] := rfl

theorem expandRanges_cons (p : Int × Int) (rl : List (Int × Int)) :
    expandRanges (p :: rl) = expandRange p ++ expandRanges rl := by
  simp [expandRanges]

theorem range_map_succ_shift (c : Int) (k : Nat) :
    (List.range (k + 1)).map (fun j : Nat => c + (j : Int)) =
      c :: (List.range k).map (fun j : Nat => c + 1 + (j : Int)) := by
  rw [List.range_succ_eq_map, List.map_cons, List.map_map]
  refine congrArg₂ List.cons (by simp) ?_
  refine List.map_congr_left ?_
  intro j hj
  simp [Function.comp, Nat.succ_eq_add_one]
  ring

theorem expandRange_eq (s e : Int) (h : s ≤ e) :
    expandRange (s, e) =
      s :: (List.range (e - s).toNat).map (fun j : Nat => s + 1 + (j : Int)) := by
  show (List.range (e + 1 - s).toNat).map (fun k : Nat => s + (k : Int)) = _
  have h1 : (e + 1 - s).toNat = (e - s).toNat + 1 := by omega
  rw [h1, range_map_succ_shift s (e - s).toNat]

theorem loop_run (k : Nat) (start prev : Int) (rest : List Int) :
    loop start prev []
        ((List.range k).map (fun j : Nat => prev + 1 + (j : Int)) ++ rest) =
      loop start (prev + k) [] rest := by
  induction k generalizing prev with
  | zero => simp
  | succ k ih =>
    have harith : prev + ((k + 1 : Nat) : Int) = prev + 1 + ((k : Nat) : Int) := by
      push_cast
      ring
    rw [harith, range_map_succ_shift (prev + 1) k, List.cons_append, loop_cons,
      if_pos rfl, ih (prev + 1)]

theorem compress_expand (rl : List (Int × Int))
    (hle : ∀ p ∈ rl, p.1 ≤ p.2)
    (hch : rl.Chain' (fun p q => p.2 + 1 < q.1)) :
    get_contiguous_ranges (expandRanges rl) = rl := by
  induction rl with
  | nil => rfl
  | cons p tl ih =>
    obtain ⟨s, e⟩ := p
    have hse : s ≤ e := hle (s, e) (by simp)
    rw [expandRanges_cons, expandRange_eq s e hse, List.cons_append]
    show loop s s []
        ((List.range (e - s).toNat).map (fun j : Nat => s + 1 + (j : Int)) ++
          expandRanges tl) = _
    rw [loop_run (e - s).toNat s s (expandRanges tl)]
    have he : s + (((e - s).toNat : Nat) : Int) = e := by omega
    rw [he]
    have hle2 : ∀ p ∈ tl, p.1 ≤ p.2 := fun p hp => hle p (List.mem_cons_of_mem _ hp)
    cases tl with
    | nil =>
      rw [expandRanges_nil, loop_nil]
      rfl
    | cons q tl2 =>
      obtain ⟨s2, e2⟩ := q
      have hgap : e + 1 < s2 := (List.chain'_cons.mp hch).1
      have hch2 := (List.chain'_cons.mp hch).2
      have hs2 : s2 ≤ e2 := hle2 (s2, e2) (by simp)
      rw [expandRanges_cons, expandRange_eq s2 e2 hs2, List.cons_append, loop_cons,
        if_neg (by omega), loop_append]
      simp only [List.nil_append, List.singleton_append]
      congr 1
      have hih := ih hle2 hch2
      rw [expandRanges_cons, expandRange_eq s2 e2 hs2, List.cons_append] at hih
      exact hih

/-- Fallible variant of the embedding: the only operation of the Python
function that could raise is the list access `indices[0]`, modelled here as
a fallible head lookup; it is guarded, as in the source, by the
`if not indices` emptiness test.  The slice `indices[1:]` (`drop 1`) and
the appends never raise in Python and are modelled as infallible. -/
def get_contiguous_rangesE (indices : List Int) :
    Except String (List (Int × Int)) :=
  if indices.isEmpty then Except.ok []
  else
    match indices.head? with
    | none => Except.error "list index out of range"
    | some x => Except.ok (loop x x [] (indices.drop 1))

/-- Number of positions `j ≥ 1` at which `xs[j] ≠ xs[j-1] + 1`, expressed
by pairing the list with its tail. -/
def countBreaks (xs : List Int) : Nat :=
  (xs.zip xs.tail).countP (fun p => decide (p.2 ≠ p.1 + 1))

theorem countBreaks_singleton (a : Int) : countBreaks [a] = 0 := rfl

theorem countBreaks_cons_cons (a b : Int) (l : List Int) :
    countBreaks (a :: b :: l) =
      countBreaks (b :: l) + (if b = a + 1 then 0 else 1) := by
  simp only [countBreaks, List.tail_cons, List.zip_cons_cons, List.countP_cons]
  by_cases h : b = a + 1 <;> simp [h]

theorem loop_length (l : List Int) (start prev : Int) (acc : List (Int × Int)) :
    (loop start prev acc l).length = acc.length + 1 + countBreaks (prev :: l) := by
  induction l generalizing start prev acc with
  | nil => simp [loop_nil, countBreaks_singleton]
  | cons i rest ih =>
    by_cases h : i = prev + 1
    · rw [loop_cons, if_pos h, ih start i acc, countBreaks_cons_cons]
      simp [h]
    · rw [loop_cons, if_neg h, ih i i (acc ++ [(start, prev)]), countBreaks_cons_cons]
      simp [h]
      omega

theorem loop_mem (l : List Int) (start prev : Int) (acc : List (Int × Int))
    (xs : List Int) (hstart : start ∈ xs) (hprev : prev ∈ xs)
    (hl : ∀ i ∈ l, i ∈ xs) (hacc : ∀ p ∈ acc, p.1 ∈ xs ∧ p.2 ∈ xs) :
    ∀ p ∈ loop start prev acc l, p.1 ∈ xs ∧ p.2 ∈ xs := by
  induction l generalizing start prev acc with
  | nil =>
    intro p hp
    rw [loop_nil] at hp
    rcases List.mem_append.mp hp with hp | hp
    · exact hacc p hp
    · simp at hp
      subst hp
      exact ⟨hstart, hprev⟩
  | cons i rest ih =>
    have hi : i ∈ xs := hl i (by simp)
    have hrest : ∀ j ∈ rest, j ∈ xs := fun j hj => hl j (List.mem_cons_of_mem _ hj)
    by_cases h : i = prev + 1
    · rw [loop_cons, if_pos h]
      exact ih start i acc hstart hi hrest hacc
    · rw [loop_cons, if_neg h]
      refine ih i i (acc ++ [(start, prev)]) hi hi hrest ?_
      intro p hp
      rcases List.mem_append.mp hp with hp | hp
      · exact hacc p hp
      · simp at hp
        subst hp
        exact ⟨hstart, hprev⟩

end RangeCompressor

open RangeCompressor

/-- C4: the spec's worked examples.  `compress([]) = []`,
`compress([5]) = [(5,5)]`, and
`compress([1,2,3,7,8,10]) = [(1,3),(7,8),(10,10)]`. -/
theorem c4_examples :
    get_contiguous_ranges [] = [] ∧
    get_contiguous_ranges [5] = [(5, 5)] ∧
    get_contiguous_ranges [1, 2, 3, 7, 8, 10] = [(1, 3), (7, 8), (10, 10)] := by
  refine ⟨rfl, rfl, ?_⟩
  decide

/-- C2: on strictly ascending input, the output of `get_contiguous_ranges`
is a well-formed RangeList: every pair has `start ≤ end`, ranges appear in
ascending order, and consecutive ranges `(s1,e1)`, `(s2,e2)` satisfy
`s2 > e1 + 1`. -/
theorem c2_well_formed (xs : List Int) (hs : xs.Chain' (· < ·)) :
    wellFormed (get_contiguous_ranges xs) :=
  ⟨compress_le xs hs,
   chain'_asc_of_gap _ (compress_le xs hs) (compress_gap xs hs),
   compress_gap xs hs⟩

/-- C1: on strictly ascending input `xs`, the union of the closed intervals
`[start, end]` over the pairs returned by `get_contiguous_ranges xs` is
exactly the set of elements of `xs`. -/
theorem c1_union_eq_elements (xs : List Int) (hs : xs.Chain' (· < ·)) (n : Int) :
    coveredBy n (get_contiguous_ranges xs) ↔ n ∈ xs := by
  cases xs with
  | nil => simp [get_contiguous_ranges, coveredBy]
  | cons x rest =>
    show coveredBy n (loop x x [] rest) ↔ n ∈ x :: rest
    rw [loop_coveredBy x x n rest le_rfl hs]
    constructor
    · rintro (⟨h1, h2⟩ | h1)
      · exact List.mem_cons.mpr (Or.inl (by omega))
      · exact List.mem_cons.mpr (Or.inr h1)
    · intro h1
      rcases List.mem_cons.mp h1 with h2 | h2
      · exact Or.inl ⟨by omega, by omega⟩
      · exact Or.inr h2

/-- Witness for C1: the input `[1,2,3,7,8,10]` is strictly ascending (with
`n = 7` covered, and `n = 5` not covered, matching membership). -/
theorem c1_union_eq_elements_witness :
    ([1, 2, 3, 7, 8, 10] : List Int).Chain' (· < ·) ∧
    (coveredBy 7 (get_contiguous_ranges [1, 2, 3, 7, 8, 10]) ↔
      (7 : Int) ∈ ([1, 2, 3, 7, 8, 10] : List Int)) ∧
    (coveredBy 5 (get_contiguous_ranges [1, 2, 3, 7, 8, 10]) ↔
      (5 : Int) ∈ ([1, 2, 3, 7, 8, 10] : List Int)) :=
  ⟨by norm_num [List.chain'_cons],
   c1_union_eq_elements [1, 2, 3, 7, 8, 10] (by norm_num [List.chain'_cons]) 7,
   c1_union_eq_elements [1, 2, 3, 7, 8, 10] (by norm_num [List.chain'_cons]) 5⟩

/-- C3: `get_contiguous_ranges` coincides with the reference single-pass
scan `compressSpec` written from the spec's description, on every input. -/
theorem c3_refines_spec_scan (xs : List Int) :
    get_contiguous_ranges xs = compressSpec xs := by
  cases xs with
  | nil => rfl
  | cons x rest =>
    show loop x x [] rest = _
    rw [compressSpec]
    exact (foldl_specStep rest [] x x).symm

/-- Witness for C2 at the concrete input `[1,2,3,7,8,10]`. -/
theorem c2_well_formed_witness :
    ([1, 2, 3, 7, 8, 10] : List Int).Chain' (· < ·) ∧
    wellFormed (get_contiguous_ranges [1, 2, 3, 7, 8, 10]) :=
  ⟨by norm_num [List.chain'_cons],
   c2_well_formed [1, 2, 3, 7, 8, 10] (by norm_num [List.chain'_cons])⟩

/-- C5: on strictly ascending input, expanding every output range back into
its constituent integers, concatenating in order, and compressing again
yields the identical range list. -/
theorem c5_idempotent (xs : List Int) (hs : xs.Chain' (· < ·)) :
    get_contiguous_ranges (expandRanges (get_contiguous_ranges xs)) =
      get_contiguous_ranges xs :=
  compress_expand (get_contiguous_ranges xs) (compress_le xs hs) (compress_gap xs hs)

/-- Witness for C5 at the concrete input `[1,2,3,7,8,10]`. -/
theorem c5_idempotent_witness :
    ([1, 2, 3, 7, 8, 10] : List Int).Chain' (· < ·) ∧
    get_contiguous_ranges (expandRanges (get_contiguous_ranges [1, 2, 3, 7, 8, 10])) =
      get_contiguous_ranges [1, 2, 3, 7, 8, 10] :=
  ⟨by norm_num [List.chain'_cons],
   c5_idempotent [1, 2, 3, 7, 8, 10] (by norm_num [List.chain'_cons])⟩

/-- C6: the fallible model of the function never reports an error: on every
input, sorted or not, empty or not, it succeeds and agrees with the total
embedding (in particular the guarded `indices[0]` access is unreachable on
empty input). -/
theorem c6_total (xs : List Int) :
    get_contiguous_rangesE xs = Except.ok (get_contiguous_ranges xs) := by
  cases xs with
  | nil => rfl
  | cons x rest => rfl

/-- C7: the function is deterministic: equal inputs give equal outputs (the
shallow embedding is a pure function of its argument alone, so it reads and
mutates no outside state by construction). -/
theorem c7_deterministic (xs ys : List Int) (h : xs = ys) :
    get_contiguous_ranges xs = get_contiguous_ranges ys := by
  rw [h]

/-- Witness for C7 at the concrete input `[1,2]`. -/
theorem c7_deterministic_witness :
    ([1, 2] : List Int) = [1, 2] ∧
    get_contiguous_ranges [1, 2] = get_contiguous_ranges [1, 2] :=
  ⟨rfl, c7_deterministic [1, 2] [1, 2] rfl⟩

/-- C8: on every non-empty input, sorted or not, the output is non-empty,
the start of the first range is the first input element, and the end of the
last range is the last input element. -/
theorem c8_endpoints (xs : List Int) (hne : xs ≠ []) :
    get_contiguous_ranges xs ≠ [] ∧
    (get_contiguous_ranges xs).head?.map Prod.fst = xs.head? ∧
    (get_contiguous_ranges xs).getLast?.map Prod.snd = xs.getLast? := by
  cases xs with
  | nil => exact absurd rfl hne
  | cons x rest =>
    refine ⟨loop_ne_nil x x [] rest, ?_, ?_⟩
    · show (loop x x [] rest).head?.map Prod.fst = some x
      obtain ⟨e, tl, heq⟩ := loop_head x x rest
      rw [heq]
      rfl
    · show (loop x x [] rest).getLast?.map Prod.snd = (x :: rest).getLast?
      obtain ⟨s, e, h1, h2⟩ := loop_last x x rest
      rw [h1, h2]
      rfl

/-- Witness for C8 at the unsorted concrete input `[3, 1]`. -/
theorem c8_endpoints_witness :
    ([3, 1] : List Int) ≠ [] ∧
    (get_contiguous_ranges [3, 1] ≠ [] ∧
     (get_contiguous_ranges [3, 1]).head?.map Prod.fst = ([3, 1] : List Int).head? ∧
     (get_contiguous_ranges [3, 1]).getLast?.map Prod.snd = ([3, 1] : List Int).getLast?) :=
  ⟨by decide, c8_endpoints [3, 1] (by decide)⟩

/-- C9: on every non-empty input the number of output ranges is `1` plus
the number of positions `j ≥ 1` with `xs[j] ≠ xs[j-1] + 1`; hence the
output length is at least `1` and at most the input length. -/
theorem c9_length (xs : List Int) (hne : xs ≠ []) :
    (get_contiguous_ranges xs).length = 1 + countBreaks xs ∧
    1 ≤ (get_contiguous_ranges xs).length ∧
    (get_contiguous_ranges xs).length ≤ xs.length := by
  cases xs with
  | nil => exact absurd rfl hne
  | cons x rest =>
    have hlen : (get_contiguous_ranges (x :: rest)).length =
        1 + countBreaks (x :: rest) := by
      show (loop x x [] rest).length = _
      rw [loop_length rest x x []]
      simp
    have hcb : countBreaks (x :: rest) ≤ rest.length := by
      have h1 : countBreaks (x :: rest) ≤ ((x :: rest).zip rest).length := by
        unfold countBreaks
        exact List.countP_le_length _
      rw [List.length_zip] at h1
      exact h1.trans (min_le_right _ _)
    refine ⟨hlen, ?_, ?_⟩
    · rw [hlen]
      omega
    · rw [hlen, List.length_cons]
      omega

/-- Witness for C9 at the concrete input `[1,2,3,7,8,10]`. -/
theorem c9_length_witness :
    ([1, 2, 3, 7, 8, 10] : List Int) ≠ [] ∧
    ((get_contiguous_ranges [1, 2, 3, 7, 8, 10]).length =
        1 + countBreaks [1, 2, 3, 7, 8, 10] ∧
     1 ≤ (get_contiguous_ranges [1, 2, 3, 7, 8, 10]).length ∧
     (get_contiguous_ranges [1, 2, 3, 7, 8, 10]).length ≤
       ([1, 2, 3, 7, 8, 10] : List Int).length) :=
  ⟨by decide, c9_length [1, 2, 3, 7, 8, 10] (by decide)⟩

/-- C10: on every input, sorted or not, both endpoints of every output
range are elements of the input. -/
theorem c10_endpoints_mem (xs : List Int) (p : Int × Int)
    (hp : p ∈ get_contiguous_ranges xs) : p.1 ∈ xs ∧ p.2 ∈ xs := by
  cases xs with
  | nil => simp [get_contiguous_ranges] at hp
  | cons x rest =>
    exact loop_mem rest x x [] (x :: rest) (by simp) (by simp)
      (fun i hi => List.mem_cons_of_mem _ hi) (by simp) p hp

/-- Witness for C10 at the concrete input `[1,2,3,7,8,10]` and the output
range `(7, 8)`. -/
theorem c10_endpoints_mem_witness :
    ((7, 8) : Int × Int) ∈ get_contiguous_ranges [1, 2, 3, 7, 8, 10] ∧
    (((7, 8) : Int × Int).1 ∈ ([1, 2, 3, 7, 8, 10] : List Int) ∧
     ((7, 8) : Int × Int).2 ∈ ([1, 2, 3, 7, 8, 10] : List Int)) :=
  ⟨by decide, c10_endpoints_mem [1, 2, 3, 7, 8, 10] (7, 8) (by decide)⟩
